import Mathlib

/-!
Verification of the core data-processing logic of the `legittagents` ACI pipeline
(`src/ACI/file_mover.py` and `src/ACI/Helpers/`): rotation assignment, status
classification, deduplication, flight-code normalization and the always-empty
sentinel extraction rules.

Python strings are embedded as `List Char`; pandas tables as Lean lists of
records.  The multi-key `DataFrame.sort_values` (which pandas implements with
the stable `numpy.lexsort` when several `by` columns are given) is embedded as
a stable insertion sort over the lexicographic key.
-/

/-- Python strings are modelled as lists of characters. -/
abbrev Str := List Char

/-- Convenience conversion from Lean string literals to the `Str` model. -/
def str (s : String) : Str := s.data

/-- ASCII whitespace recognizer used to model Python's `str.strip()`. -/
def isSpaceChar (c : Char) : Bool := c == ' ' || c == '\t' || c == '\n' || c == '\r'

/-- Model of Python's `str.strip()` (pandas `.str.strip()`): removes leading and
trailing whitespace. -/
def trimStr (s : Str) : Str :=
  ((s.dropWhile isSpaceChar).reverse.dropWhile isSpaceChar).reverse

/-- Model of Python's `str.upper()` restricted to the ASCII range exercised by
the flight-code tables. -/
def upperStr (s : Str) : Str := s.map Char.toUpper

/-- Model of Python's `str.casefold()`/`str.lower()` restricted to ASCII. -/
def lowerStr (s : Str) : Str := s.map Char.toLower

section StableSort

/- A stable insertion sort, parameterized by a boolean comparison `le`.  It
embeds both `DataFrame.sort_values` (stable multi-key lexsort) and Python's
stable `sorted(..., key=len, reverse=True)`: a new element `a` is inserted
before the first already-placed element `b` with `le a b`, so elements that
compare equal keep their original relative order. -/

variable {α : Type} (le : α → α → Bool)

/-- Insert `a` into `s` before the first element `b` with `le a b = true`. -/
def ordInsert (a : α) : List α → List α
  | [] => [a]
  | b :: t => if le a b then a :: b :: t else b :: ordInsert a t

/-- Stable insertion sort by `le`. -/
def isort : List α → List α
  | [] => []
  | a :: t => ordInsert le a (isort t)

theorem ordInsert_perm (a : α) (s : List α) : List.Perm (ordInsert le a s) (a :: s) := by
  induction s with
  | nil => simp [ordInsert]
  | cons b t ih =>
    by_cases h : le a b = true
    · simp [ordInsert, h]
    · simp only [ordInsert, h, if_neg]
      exact (ih.cons b).trans (List.Perm.swap a b t)

theorem isort_perm (l : List α) : List.Perm (isort le l) l := by
  induction l with
  | nil => simp [isort]
  | cons a t ih =>
    exact (ordInsert_perm le a (isort le t)).trans (ih.cons a)

theorem mem_ordInsert {x a : α} {s : List α} :
    x ∈ ordInsert le a s ↔ x = a ∨ x ∈ s := by
  have h := (ordInsert_perm le a s).mem_iff (a := x)
  simpa using h

theorem mem_isort {x : α} {l : List α} : x ∈ isort le l ↔ x ∈ l :=
  (isort_perm le l).mem_iff

theorem pairwise_ordInsert
    (htrans : ∀ a b c, le a b = true → le b c = true → le a c = true)
    (htotal : ∀ a b, le a b = true ∨ le b a = true)
    (a : α) (s : List α) (hs : s.Pairwise (fun x y => le x y = true)) :
    (ordInsert le a s).Pairwise (fun x y => le x y = true) := by
  induction s with
  | nil => simp [ordInsert]
  | cons b t ih =>
    rcases List.pairwise_cons.mp hs with ⟨hb, ht⟩
    cases h : le a b with
    | true =>
      simp only [ordInsert, h, if_pos]
      refine List.pairwise_cons.mpr ⟨?_, hs⟩
      intro y hy
      rcases List.mem_cons.mp hy with rfl | hy
      · exact h
      · exact htrans a b y h (hb y hy)
    | false =>
      simp only [ordInsert, h, Bool.false_eq_true, if_false]
      refine List.pairwise_cons.mpr ⟨?_, ih ht⟩
      intro y hy
      rcases (mem_ordInsert le).mp hy with rfl | hy
      · rcases htotal y b with h' | h'
        · rw [h] at h'; exact absurd h' (by simp)
        · exact h'
      · exact hb y hy

theorem pairwise_isort
    (htrans : ∀ a b c, le a b = true → le b c = true → le a c = true)
    (htotal : ∀ a b, le a b = true ∨ le b a = true)
    (l : List α) : (isort le l).Pairwise (fun x y => le x y = true) := by
  induction l with
  | nil => simp [isort]
  | cons a t ih => exact pairwise_ordInsert le htrans htotal a (isort le t) ih

theorem ordInsert_eq_cons (a : α) (s : List α) (h : ∀ y ∈ s, le a y = true) :
    ordInsert le a s = a :: s := by
  cases s with
  | nil => rfl
  | cons b t => simp [ordInsert, h b (by simp)]

theorem filter_ordInsert
    (htrans : ∀ a b c, le a b = true → le b c = true → le a c = true)
    (p : α → Bool) (a : α) (s : List α)
    (hs : s.Pairwise (fun x y => le x y = true)) :
    (ordInsert le a s).filter p =
      if p a then ordInsert le a (s.filter p) else s.filter p := by
  induction s with
  | nil => cases h : p a <;> simp [ordInsert, List.filter, h]
  | cons b t ih =>
    rcases List.pairwise_cons.mp hs with ⟨hb, ht⟩
    cases h : le a b with
    | true =>
      simp only [ordInsert, h, if_true]
      cases hpa : p a with
      | false => simp [List.filter, hpa]
      | true =>
        cases hpb : p b with
        | true => simp [List.filter, hpa, hpb, ordInsert, h]
        | false =>
          -- every kept element of `t` is `le`-above `b`, hence `le`-above `a`.
          have hall : ∀ y ∈ t.filter p, le a y = true := by
            intro y hy
            exact htrans a b y h (hb y (List.mem_of_mem_filter hy))
          simp [List.filter, hpa, hpb, ordInsert_eq_cons le a _ hall]
    | false =>
      simp only [ordInsert, h, Bool.false_eq_true, if_false]
      cases hpb : p b with
      | true =>
        simp only [List.filter, hpb, ih ht]
        cases hpa : p a <;> simp [ordInsert, h]
      | false => simp [List.filter, hpb, ih ht]

theorem filter_isort
    (htrans : ∀ a b c, le a b = true → le b c = true → le a c = true)
    (htotal : ∀ a b, le a b = true ∨ le b a = true)
    (p : α → Bool) (l : List α) :
    (isort le l).filter p = isort le (l.filter p) := by
  induction l with
  | nil => simp [isort]
  | cons a t ih =>
    simp only [isort]
    rw [filter_ordInsert le htrans p a (isort le t) (pairwise_isort le htrans htotal t), ih]
    cases h : p a with
    | true => simp [List.filter, h, isort]
    | false => simp [List.filter, h]

theorem isort_eq_self_of_all_le
    (l : List α) (h : ∀ a ∈ l, ∀ b ∈ l, le a b = true) : isort le l = l := by
  induction l with
  | nil => simp [isort]
  | cons a t ih =>
    simp only [isort]
    rw [ih (fun x hx y hy =>
      h x (List.mem_cons_of_mem a hx) y (List.mem_cons_of_mem a hy))]
    cases t with
    | nil => simp [ordInsert]
    | cons b u =>
      simp [ordInsert, h a (by simp) b (by simp)]

end StableSort

/-!
## Rotation assignment (`assign_rotations`, src/ACI/file_mover.py lines 100–177)

A record of the combined flight table, restricted to the columns that
`assign_rotations` reads or writes.  `Date` is the already-parsed calendar
value (`pd.to_datetime(df[date_col], format='%d-%b-%y')` — parsing itself is
out of scope, only its order matters), `ATD` the normalized `'HH:MM'` string.
-/

structure Rec where
  Registration : Str
  Date : Nat
  ATD : Str
  Dep : Str
  Arr : Str
  TO : Option Str
  LDG : Option Str
  Status : Str
  Rotation : Nat
deriving DecidableEq, Repr

/-- `_blank(x)` (file_mover.py lines 100–101): `pd.isna(x) or (isinstance(x, str)
and x.strip() == '')`.  A missing cell is `none`. -/
def _blank (x : Option Str) : Bool :=
  match x with
  | none => true
  | some s => trimStr s == []

/-- The `Status` lambda of `assign_rotations` (lines 120–127): `'Not Flown'` if
both `TO` and `LDG` are blank, else `'Cancelled'` if `Dep == Arr`, else
`'Completed'`. -/
def statusOf (r : Rec) : Str :=
  if _blank r.TO && _blank r.LDG then str "Not Flown"
  else if r.Dep = r.Arr then str "Cancelled"
  else str "Completed"

/-- Applying the `Status` column assignment to one row. -/
def withStatus (r : Rec) : Rec := { r with Status := statusOf r }

/-- The sort key of line 114: `df.sort_values(by=[reg_col, date_col, atd_col])`,
compared lexicographically. -/
def keyOf (r : Rec) : Lex (Str × Lex (Nat × Str)) :=
  toLex (r.Registration, toLex (r.Date, r.ATD))

/-- Boolean comparison on rows induced by the `(Registration, Date, ATD)` key. -/
def recLE (a b : Rec) : Bool := decide (keyOf a ≤ keyOf b)

/-- The stable multi-key sort of line 114 (pandas uses the stable
`numpy.lexsort` whenever `sort_values` is given several `by` columns). -/
def sortRecords (df : List Rec) : List Rec := isort recLE df

theorem recLE_trans (a b c : Rec) (h₁ : recLE a b = true) (h₂ : recLE b c = true) :
    recLE a c = true := by
  simp only [recLE, decide_eq_true_eq] at *
  exact le_trans h₁ h₂

theorem recLE_total (a b : Rec) : recLE a b = true ∨ recLE b a = true := by
  simp only [recLE, decide_eq_true_eq]
  exact le_total (keyOf a) (keyOf b)

/-- Validity filter of line 130: `valid = df[df[dep_col] != df[arr_col]]`. -/
def isValid (r : Rec) : Bool := r.Dep != r.Arr

/-- Result of the inner `while` loop of `assign_rotations` (lines 148–155):
`buf` is the tail of the loop buffer (`loop_positions[1:]`), `rem` the legs the
outer walk resumes at, `closed` whether the loop closed (`last_arr ==
start_dep`). -/
structure CollectRes where
  buf : List Rec
  rem : List Rec
  closed : Bool
deriving DecidableEq, Repr

/-- The inner `while j < n and valid.iloc[j][dep_col] == last_arr` loop:
collect consecutive legs while the next departure matches the last arrival,
stopping immediately (`break`) when the last collected arrival equals the
starting departure.  On a closed loop the closing leg is consumed (`i = j +
1`), on a broken chain the mismatching leg is left in `rem` (`i = j`). -/
def collect (startDep lastArr : Str) : List Rec → CollectRes
  | [] => ⟨[], [], false⟩
  | r :: rest =>
    if r.Dep = lastArr then
      if r.Arr = startDep then ⟨[r], rest, true⟩
      else
        let res := collect startDep r.Arr rest
        ⟨r :: res.buf, res.rem, res.closed⟩
    else ⟨[], r :: rest, false⟩

theorem collect_buf_rem (startDep lastArr : Str) (l : List Rec) :
    (collect startDep lastArr l).buf ++ (collect startDep lastArr l).rem = l := by
  induction l generalizing lastArr with
  | nil => rfl
  | cons r rest ih =>
    by_cases h₁ : r.Dep = lastArr
    · by_cases h₂ : r.Arr = startDep
      · simp [collect, h₁, h₂]
      · simp [collect, h₁, h₂, ih r.Arr]
    · simp [collect, h₁]

theorem collect_rem_length (startDep lastArr : Str) (l : List Rec) :
    (collect startDep lastArr l).rem.length ≤ l.length := by
  conv_rhs => rw [← collect_buf_rem startDep lastArr l]
  simp

/-- The outer `while i < n` walk of `assign_rotations` (lines 140–170): each
iteration starts rotation `g + 1` at the first unconsumed leg, collects its
chain, tags every collected leg with `g + 1`, bumps the counter and resumes at
`rem`. -/
def walk (g : Nat) : List Rec → List (Rec × Nat)
  | [] => []
  | r :: rest =>
    (r :: (collect r.Dep r.Arr rest).buf).map (fun x => (x, g + 1))
      ++ walk (g + 1) (collect r.Dep r.Arr rest).rem
termination_by l => l.length
decreasing_by
  simp only [List.length_cons]
  exact Nat.lt_succ_of_le (collect_rem_length r.Dep r.Arr rest)

theorem walk_nil (g : Nat) : walk g [] = [] := by
  simp [walk]

theorem walk_cons (g : Nat) (r : Rec) (rest : List Rec) :
    walk g (r :: rest) =
      (r :: (collect r.Dep r.Arr rest).buf).map (fun x => (x, g + 1))
        ++ walk (g + 1) (collect r.Dep r.Arr rest).rem := by
  simp [walk]

/-- Lines 172–175: `df['Rotation'] = 0`, then the positional rotation numbers
are written back onto the `Dep != Arr` rows, in order. -/
def assignBack : List Rec → List Nat → List Rec
  | [], _ => []
  | r :: rest, rots =>
    if r.Dep = r.Arr then
      { r with Rotation := 0 } :: assignBack rest rots
    else
      match rots with
      | [] => { r with Rotation := 0 } :: assignBack rest []
      | n :: ns => { r with Rotation := n } :: assignBack rest ns

/-- The `Dep != Arr` subsequence of the sorted, status-annotated table — the
exact sequence of legs the rotation walk runs over. -/
def validLegs (df : List Rec) : List Rec :=
  ((sortRecords df).map withStatus).filter isValid

/-- The walk over the valid legs, pairing each leg with its rotation number. -/
def validRotations (df : List Rec) : List (Rec × Nat) :=
  walk 0 (validLegs df)

/-- `assign_rotations` (file_mover.py lines 104–177): sort by `(Registration,
Date, ATD)`, derive `Status`, walk the `Dep != Arr` legs assigning rotation
numbers, and write them back (0 for cancelled-route rows). -/
def assign_rotations (df : List Rec) : List Rec :=
  assignBack ((sortRecords df).map withStatus) ((validRotations df).map Prod.snd)

theorem isValid_iff (r : Rec) : isValid r = true ↔ r.Dep ≠ r.Arr := by
  simp [isValid]

theorem isValid_withStatus (r : Rec) : isValid (withStatus r) = isValid r := rfl

/-- The walk visits exactly the valid legs, in order. -/
theorem walk_map_fst_aux :
    ∀ (n g : Nat) (l : List Rec), l.length ≤ n → (walk g l).map Prod.fst = l := by
  intro n
  induction n with
  | zero =>
    intro g l h
    have : l = [] := List.eq_nil_of_length_eq_zero (Nat.le_zero.mp h)
    subst this
    simp [walk_nil]
  | succ n ih =>
    intro g l h
    cases l with
    | nil => simp [walk_nil]
    | cons r rest =>
      rw [walk_cons]
      have h₁ : (collect r.Dep r.Arr rest).rem.length ≤ n := by
        have := collect_rem_length r.Dep r.Arr rest
        simp only [List.length_cons] at h
        omega
      simp only [List.map_append, List.map_map, Function.comp_def, List.map_id,
        ih (g + 1) _ h₁]
      simp only [List.map_cons, List.cons_append, List.cons.injEq, true_and]
      conv_rhs => rw [← collect_buf_rem r.Dep r.Arr rest]
      simp

theorem walk_map_fst (g : Nat) (l : List Rec) : (walk g l).map Prod.fst = l :=
  walk_map_fst_aux l.length g l (le_refl _)

/-- Every rotation number produced by `walk g` is strictly above `g` (so the
run starting from `global_rotation = 0` only produces positive numbers). -/
theorem walk_snd_pos_aux :
    ∀ (n g : Nat) (l : List Rec) (p : Rec × Nat), l.length ≤ n → p ∈ walk g l →
      g < p.2 := by
  intro n
  induction n with
  | zero =>
    intro g l p h hp
    have : l = [] := List.eq_nil_of_length_eq_zero (Nat.le_zero.mp h)
    subst this
    simp [walk_nil] at hp
  | succ n ih =>
    intro g l p h hp
    cases l with
    | nil => simp [walk_nil] at hp
    | cons r rest =>
      rw [walk_cons] at hp
      rcases List.mem_append.mp hp with hp | hp
      · rcases List.mem_map.mp hp with ⟨x, _, rfl⟩
        exact Nat.lt_succ_self g
      · have h₁ : (collect r.Dep r.Arr rest).rem.length ≤ n := by
          have := collect_rem_length r.Dep r.Arr rest
          simp only [List.length_cons] at h
          omega
        exact Nat.lt_of_succ_lt (ih (g + 1) _ p h₁ hp)

theorem walk_snd_pos (g : Nat) (l : List Rec) (p : Rec × Nat) (hp : p ∈ walk g l) :
    g < p.2 :=
  walk_snd_pos_aux l.length g l p (le_refl _) hp

/-- Cancelled-route rows always come out of the write-back with `Rotation = 0`. -/
theorem assignBack_cancelled :
    ∀ (l : List Rec) (rots : List Nat) (x : Rec), x ∈ assignBack l rots →
      x.Dep = x.Arr → x.Rotation = 0 := by
  intro l
  induction l with
  | nil => intro rots x hx; simp [assignBack] at hx
  | cons r rest ih =>
    intro rots x hx hda
    by_cases h : r.Dep = r.Arr
    · simp only [assignBack, h, if_pos] at hx
      rcases List.mem_cons.mp hx with rfl | hx
      · rfl
      · exact ih rots x hx hda
    · simp only [assignBack, h, if_neg] at hx
      cases rots with
      | nil =>
        rcases List.mem_cons.mp hx with rfl | hx
        · rfl
        · exact ih [] x hx hda
      | cons m ms =>
        rcases List.mem_cons.mp hx with rfl | hx
        · exact absurd hda h
        · exact ih ms x hx hda

/-- Valid rows receive one of the supplied rotation numbers, provided the list
of numbers is long enough; with all numbers positive, every valid row gets a
positive rotation. -/
theorem assignBack_valid_pos :
    ∀ (l : List Rec) (rots : List Nat),
      (∀ m ∈ rots, 0 < m) → (l.filter isValid).length ≤ rots.length →
      ∀ x ∈ assignBack l rots, x.Dep ≠ x.Arr → 0 < x.Rotation := by
  intro l
  induction l with
  | nil => intro rots _ _ x hx; simp [assignBack] at hx
  | cons r rest ih =>
    intro rots hpos hlen x hx hda
    by_cases h : r.Dep = r.Arr
    · simp only [assignBack, h, if_pos] at hx
      have hlen' : (rest.filter isValid).length ≤ rots.length := by
        have : isValid r = false := by simp [isValid, h]
        simpa [List.filter, this] using hlen
      rcases List.mem_cons.mp hx with rfl | hx
      · exact absurd (by simp [h]) hda
      · exact ih rots hpos hlen' x hx hda
    · have hvr : isValid r = true := by simp [isValid, h]
      simp only [assignBack, h, if_neg] at hx
      cases rots with
      | nil =>
        exfalso
        simp [List.filter, hvr] at hlen
      | cons m ms =>
        have hlen' : (rest.filter isValid).length ≤ ms.length := by
          simp only [List.filter, hvr, List.length_cons] at hlen ⊢
          omega
        rcases List.mem_cons.mp hx with rfl | hx
        · exact hpos m (by simp)
        · exact ih ms (fun y hy => hpos y (List.mem_cons_of_mem m hy)) hlen' x hx hda

theorem filter_map_withStatus (l : List Rec) :
    (l.map withStatus).filter isValid = (l.filter isValid).map withStatus := by
  induction l with
  | nil => rfl
  | cons r t ih =>
    cases h : isValid r with
    | true => simp [List.filter, isValid_withStatus, h, ih]
    | false => simp [List.filter, isValid_withStatus, h, ih]

/-- Filtering to the valid legs commutes with the stable sort: the walk's input
is the sorted image of the valid subsequence of the raw table. -/
theorem validLegs_eq (df : List Rec) :
    validLegs df = (sortRecords (df.filter isValid)).map withStatus := by
  rw [validLegs, filter_map_withStatus, sortRecords, sortRecords,
    filter_isort recLE recLE_trans recLE_total isValid df]

theorem collect_closed_triple (l1 l2 l3 : Rec) (rest : List Rec)
    (h3 : l3.Dep ≠ l3.Arr) (h4 : l2.Dep = l1.Arr) (h5 : l3.Dep = l2.Arr)
    (h6 : l3.Arr = l1.Dep) :
    collect l1.Dep l1.Arr (l2 :: l3 :: rest) = ⟨[l2, l3], rest, true⟩ := by
  have h23 : ¬ l2.Arr = l1.Dep := fun hEq => h3 (by rw [h5, hEq, h6])
  simp [collect, h4, h23, h5, h6]

/-- C1: on the sorted `Dep != Arr` subsequence, the walk extends a rotation
while the next leg's departure equals the last collected arrival, stops
immediately when the last arrival equals the starting departure, gives every
collected leg the rotation number `g + 1`, resumes after the closing leg of a
closed loop and at the mismatching leg of a broken chain; so legs `A→B, B→C,
C→A` in sorted order all get one rotation number and the very next leg starts
rotation `g + 2`. -/
theorem C1_rotation_chaining :
    (∀ (g : Nat) (l1 l2 l3 : Rec) (rest : List Rec),
        l1.Dep ≠ l1.Arr → l2.Dep ≠ l2.Arr → l3.Dep ≠ l3.Arr →
        l2.Dep = l1.Arr → l3.Dep = l2.Arr → l3.Arr = l1.Dep →
        walk g (l1 :: l2 :: l3 :: rest) =
          (l1, g + 1) :: (l2, g + 1) :: (l3, g + 1) :: walk (g + 1) rest)
    ∧ (∀ (g : Nat) (l1 l2 l3 r4 : Rec) (rest' : List Rec),
        l1.Dep ≠ l1.Arr → l2.Dep ≠ l2.Arr → l3.Dep ≠ l3.Arr →
        l2.Dep = l1.Arr → l3.Dep = l2.Arr → l3.Arr = l1.Dep →
        ∃ tail, walk g (l1 :: l2 :: l3 :: r4 :: rest') =
          (l1, g + 1) :: (l2, g + 1) :: (l3, g + 1) :: (r4, g + 2) :: tail)
    ∧ (∀ (g : Nat) (l1 r : Rec) (rest : List Rec),
        r.Dep ≠ l1.Arr →
        walk g (l1 :: r :: rest) = (l1, g + 1) :: walk (g + 1) (r :: rest)) := by
  have core : ∀ (g : Nat) (l1 l2 l3 : Rec) (rest : List Rec),
      l3.Dep ≠ l3.Arr → l2.Dep = l1.Arr → l3.Dep = l2.Arr → l3.Arr = l1.Dep →
      walk g (l1 :: l2 :: l3 :: rest) =
        (l1, g + 1) :: (l2, g + 1) :: (l3, g + 1) :: walk (g + 1) rest := by
    intro g l1 l2 l3 rest h3 h4 h5 h6
    rw [walk_cons, collect_closed_triple l1 l2 l3 rest h3 h4 h5 h6]
    simp
  refine ⟨fun g l1 l2 l3 rest _ _ h3 h4 h5 h6 => core g l1 l2 l3 rest h3 h4 h5 h6,
    ?_, ?_⟩
  · intro g l1 l2 l3 r4 rest' _ _ h3 h4 h5 h6
    refine ⟨(collect r4.Dep r4.Arr rest').buf.map (fun x => (x, g + 2)) ++
        walk (g + 2) (collect r4.Dep r4.Arr rest').rem, ?_⟩
    rw [core g l1 l2 l3 (r4 :: rest') h3 h4 h5 h6, walk_cons]
    simp
  · intro g l1 r rest hmis
    rw [walk_cons]
    have hc : collect l1.Dep l1.Arr (r :: rest) = ⟨[], r :: rest, false⟩ := by
      simp [collect, hmis]
    rw [hc]
    simp

def rAB : Rec :=
  ⟨str "9H-SLD", 1, str "01:00", str "MLA", str "CDG",
    some (str "01:10"), some (str "02:00"), str "", 0⟩

def rBC : Rec :=
  ⟨str "9H-SLD", 1, str "04:00", str "CDG", str "LHR",
    some (str "04:10"), some (str "05:00"), str "", 0⟩

def rCA : Rec :=
  ⟨str "9H-SLD", 1, str "07:00", str "LHR", str "MLA",
    some (str "07:10"), some (str "08:00"), str "", 0⟩

def rDE : Rec :=
  ⟨str "9H-SLD", 2, str "01:00", str "BRU", str "VIE",
    some (str "01:10"), some (str "02:00"), str "", 0⟩

theorem C1_rotation_chaining_witness :
    walk 0 [rAB, rBC, rCA, rDE] = [(rAB, 1), (rBC, 1), (rCA, 1), (rDE, 2)] := by
  have h := C1_rotation_chaining.1 0 rAB rBC rCA [rDE]
    (by decide) (by decide) (by decide) (by decide) (by decide) (by decide)
  rw [h, walk_cons]
  have hc : collect rDE.Dep rDE.Arr [] = ⟨[], [], false⟩ := by decide
  rw [hc, walk_nil]
  simp

/- Two registrations whose sorted legs happen to chain at the boundary: the
last arrival of `9H-AAA`'s only leg equals the first departure of `9H-BBB`'s
only leg.  The inner loop of `assign_rotations` (line 149) compares only
`valid.iloc[j][dep_col] == last_arr` and never the registration. -/

def c2a : Rec :=
  ⟨str "9H-AAA", 1, str "01:00", str "MLA", str "CDG",
    some (str "01:10"), some (str "02:00"), str "", 0⟩

def c2b : Rec :=
  ⟨str "9H-BBB", 1, str "01:00", str "CDG", str "LHR",
    some (str "01:10"), some (str "02:00"), str "", 0⟩

/-- C2 is violated by the code: with one `9H-AAA` leg `MLA→CDG` and one
`9H-BBB` leg `CDG→LHR`, `assign_rotations` puts both records — two different
registrations — into the same rotation 1, because the chain walk only compares
airports, never registrations. -/
theorem C2_registration_leak :
    (assign_rotations [c2a, c2b]).map (fun r => (r.Registration, r.Rotation)) =
      [(str "9H-AAA", 1), (str "9H-BBB", 1)] ∧
    c2a.Registration ≠ c2b.Registration := by
  constructor
  · have hv : validLegs [c2a, c2b] = [withStatus c2a, withStatus c2b] := by decide
    have hc : collect (withStatus c2a).Dep (withStatus c2a).Arr [withStatus c2b] =
        ⟨[withStatus c2b], [], false⟩ := by decide
    have hw : walk 0 [withStatus c2a, withStatus c2b] =
        [(withStatus c2a, 1), (withStatus c2b, 1)] := by
      rw [walk_cons, hc, walk_nil]
      simp
    unfold assign_rotations validRotations
    rw [hv, hw]
    decide
  · decide

/-- C3: `Status` is `"Not Flown"` iff both `TO` and `LDG` are blank; otherwise
`"Cancelled"` iff `Dep == Arr`, else `"Completed"`; in particular blank
`TO`/`LDG` wins over `Dep != Arr` because the Not-Flown check comes first. -/
theorem C3_status_classification :
    ∀ r : Rec,
      (statusOf r = str "Not Flown" ↔ (_blank r.TO = true ∧ _blank r.LDG = true))
      ∧ (_blank r.TO = true → _blank r.LDG = true → r.Dep ≠ r.Arr →
          statusOf r = str "Not Flown")
      ∧ (¬(_blank r.TO = true ∧ _blank r.LDG = true) →
          (statusOf r = str "Cancelled" ↔ r.Dep = r.Arr))
      ∧ (¬(_blank r.TO = true ∧ _blank r.LDG = true) → r.Dep ≠ r.Arr →
          statusOf r = str "Completed") := by
  intro r
  cases hTO : _blank r.TO <;> cases hLDG : _blank r.LDG <;>
    by_cases hd : r.Dep = r.Arr <;>
      simp [statusOf, hTO, hLDG, hd, str]

def r3nf : Rec :=
  ⟨str "9H-SLD", 1, str "01:00", str "MLA", str "CDG", none, none, str "", 0⟩

theorem C3_status_classification_witness : statusOf r3nf = str "Not Flown" :=
  (C3_status_classification r3nf).2.1 (by decide) (by decide) (by decide)

/-- C4: cancelled-route records (`Dep == Arr`) always end with `Rotation = 0`,
valid records always get a positive rotation, and removing a cancelled record
from the table leaves the rotation walk over the valid legs unchanged. -/
theorem C4_cancelled_exclusion :
    (∀ (df : List Rec) (r : Rec), r ∈ assign_rotations df → r.Dep = r.Arr →
        r.Rotation = 0)
    ∧ (∀ (df : List Rec) (r : Rec), r ∈ assign_rotations df → r.Dep ≠ r.Arr →
        0 < r.Rotation)
    ∧ (∀ (pre post : List Rec) (c : Rec), c.Dep = c.Arr →
        validRotations (pre ++ c :: post) = validRotations (pre ++ post)) := by
  refine ⟨?_, ?_, ?_⟩
  · intro df r hr hda
    simp only [assign_rotations] at hr
    exact assignBack_cancelled _ _ r hr hda
  · intro df r hr hda
    simp only [assign_rotations] at hr
    refine assignBack_valid_pos _ _ ?_ ?_ r hr hda
    · intro m hm
      rcases List.mem_map.mp hm with ⟨p, hp, rfl⟩
      exact walk_snd_pos 0 _ p hp
    · rw [List.length_map]
      have hfst := walk_map_fst 0 (validLegs df)
      have hlen : (validRotations df).length = (validLegs df).length := by
        rw [validRotations]
        rw [← congrArg List.length hfst, List.length_map]
      exact le_of_eq hlen.symm
  · intro pre post c hc
    have hcv : isValid c = false := by simp [isValid, hc]
    rw [validRotations, validRotations, validLegs_eq, validLegs_eq]
    rw [List.filter_append, List.filter_append, List.filter_cons, hcv]
    simp

def r4c : Rec :=
  ⟨str "9H-AAA", 1, str "01:00", str "MLA", str "MLA",
    some (str "01:10"), some (str "02:00"), str "", 7⟩

def r4v : Rec :=
  ⟨str "9H-BBB", 1, str "01:00", str "BRU", str "VIE",
    some (str "01:10"), some (str "02:00"), str "", 0⟩

def out4c : Rec := { r4c with Status := str "Cancelled", Rotation := 0 }

def out4v : Rec := { r4v with Status := str "Completed", Rotation := 1 }

theorem C4_cancelled_exclusion_witness :
    out4c.Rotation = 0 ∧ 0 < out4v.Rotation := by
  have hv : validLegs [r4c, r4v] = [withStatus r4v] := by decide
  have hc : collect (withStatus r4v).Dep (withStatus r4v).Arr [] = ⟨[], [], false⟩ := by
    decide
  have hw : walk 0 [withStatus r4v] = [(withStatus r4v, 1)] := by
    rw [walk_cons, hc, walk_nil]
    simp
  have hout : assign_rotations [r4c, r4v] = [out4c, out4v] := by
    unfold assign_rotations validRotations
    rw [hv, hw]
    decide
  constructor
  · exact C4_cancelled_exclusion.1 [r4c, r4v] out4c (by rw [hout]; simp) (by decide)
  · exact C4_cancelled_exclusion.2.1 [r4c, r4v] out4v (by rw [hout]; simp) (by decide)

/-- C5: the `(Registration, Date, ATD)` sort of `assign_rotations` is stable —
for every key value, the subsequence of records carrying that exact key is
unchanged by sorting, so tied records keep their input order. -/
theorem C5_sort_stability :
    ∀ (df : List Rec) (k : Lex (Str × Lex (Nat × Str))),
      (sortRecords df).filter (fun r => decide (keyOf r = k)) =
        df.filter (fun r => decide (keyOf r = k)) := by
  intro df k
  rw [sortRecords, filter_isort recLE recLE_trans recLE_total]
  apply isort_eq_self_of_all_le
  intro a ha b hb
  have hka : keyOf a = k := of_decide_eq_true (List.mem_filter.mp ha).2
  have hkb : keyOf b = k := of_decide_eq_true (List.mem_filter.mp hb).2
  simp [recLE, hka, hkb]

/-!
## Deduplication (`drop_all_dupe_keys`, file_mover.py lines 180–191, and the
core of `extract_duplicates_from_file`, Helpers/extract_duplicates_helper.py)
-/

/-- A row of the combined output table, restricted to the columns the two
deduplication paths read. -/
structure Row where
  EnquiryNo : Str
  Date : Str
  FlightNumber : Str
  Status : Str
deriving DecidableEq, Repr

/-- The composite key as compared by Mode B: `tmp[c] = tmp[c].str.strip()` is
applied to every (string) key column before `duplicated` runs. -/
def stripKey (r : Row) : Str × Str × Str :=
  (trimStr r.EnquiryNo, trimStr r.Date, trimStr r.FlightNumber)

/-- `drop_all_dupe_keys` (file_mover.py lines 180–191): drop every row whose
stripped composite key occurs more than once (`duplicated(..., keep=False)`);
the surviving rows keep their original, unstripped values. -/
def drop_all_dupe_keys (df : List Row) : List Row :=
  df.filter (fun r =>
    decide (df.countP (fun s => decide (stripKey s = stripKey r)) = 1))

/-- The case-insensitive, trimmed `"not flown"` test of the helper
(`status_series = df[status_col].astype(str).str.strip().str.casefold()`). -/
def isNotFlown (r : Row) : Bool := lowerStr (trimStr r.Status) == str "not flown"

/-- Modelled from the spec: the helper's `pd.to_datetime(key_df["Date"],
errors="coerce").dt.normalize()` is a pandas-library call, not repository code;
for the whitespace behaviour exercised here it is modelled as trimming the date
string (datetime parsing ignores surrounding whitespace), leaving calendar
equivalence of differently-spelled dates out of scope. -/
def normalizeDateKey (s : Str) : Str := trimStr s

/-- The Mode A composite key (extract_duplicates_helper.py lines 27–29):
`key_df = df[list(KEY_COLS)].copy()` takes `EnquiryNo` and `FlightNumber`
verbatim — no `.str.strip()` — and only `Date` is normalized. -/
def modeAKey (r : Row) : Str × Str × Str :=
  (r.EnquiryNo, normalizeDateKey r.Date, r.FlightNumber)

/-- The in-memory core of `extract_duplicates_from_file` (lines 18–33): split
off the `"not flown"` rows, then flag every remaining row whose Mode A key
occurs at least twice (`duplicated(keep=False)`).  Returns `(duplicates,
not_flown)`; the Excel/`AIReason` packaging is IO and out of scope. -/
def extract_duplicates (df : List Row) : List Row × List Row :=
  let notFlown := df.filter isNotFlown
  let rest := df.filter (fun r => ! isNotFlown r)
  let dups := rest.filter (fun r =>
    decide (2 ≤ rest.countP (fun s => decide (modeAKey s = modeAKey r))))
  (dups, notFlown)

theorem two_le_length_of_mem_ne {α : Type} {a b : α} {l : List α}
    (ha : a ∈ l) (hb : b ∈ l) (hab : a ≠ b) : 2 ≤ l.length := by
  induction l with
  | nil => simp at ha
  | cons x t ih =>
    rcases List.mem_cons.mp ha with rfl | ha'
    · rcases List.mem_cons.mp hb with rfl | hb'
      · exact absurd rfl hab
      · have ht : 0 < t.length := List.length_pos.mpr (List.ne_nil_of_mem hb')
        simp only [List.length_cons]
        omega
    · have ht : 0 < t.length := List.length_pos.mpr (List.ne_nil_of_mem ha')
      simp only [List.length_cons]
      omega

theorem two_le_countP_of_mem {α : Type} (p : α → Bool) {a b : α} {l : List α}
    (ha : a ∈ l) (hb : b ∈ l) (hab : a ≠ b)
    (hpa : p a = true) (hpb : p b = true) : 2 ≤ l.countP p := by
  rw [List.countP_eq_length_filter]
  exact two_le_length_of_mem_ne (List.mem_filter.mpr ⟨ha, hpa⟩)
    (List.mem_filter.mpr ⟨hb, hpb⟩) hab

def rowA : Row := ⟨str "AB", str "01-Jan-25", str "KM100", str "Completed"⟩

def rowB : Row := ⟨str " AB", str "01-Jan-25", str "KM100", str "Completed"⟩

/-- C7 fails on the code: `rowA` and `rowB` differ only by leading whitespace
in `EnquiryNo` (their trimmed keys coincide), Mode B drops both, but Mode A —
which compares `EnquiryNo` and `FlightNumber` unstripped — flags neither. -/
theorem C7_whitespace_key_cex :
    stripKey rowA = stripKey rowB ∧ rowA ≠ rowB ∧
    (extract_duplicates [rowA, rowB]).1 = [] ∧
    drop_all_dupe_keys [rowA, rowB] = [] := by
  decide

/-- C7 amended: Mode B key comparison is whitespace-insensitive (any two
distinct rows whose keys agree after trimming are both removed), but Mode A is
not — a pair of rows that are not `"not flown"` and have different raw Mode A
keys is never flagged, even when the keys agree after trimming. -/
theorem C7_whitespace_key_amended :
    (∀ (df : List Row) (r1 r2 : Row), r1 ∈ df → r2 ∈ df → r1 ≠ r2 →
        stripKey r1 = stripKey r2 → r1 ∉ drop_all_dupe_keys df)
    ∧ (∀ a b : Row, isNotFlown a = false → isNotFlown b = false →
        modeAKey a ≠ modeAKey b → (extract_duplicates [a, b]).1 = []) := by
  constructor
  · intro df r1 r2 h1 h2 hne hkey hmem
    have hcount : df.countP (fun s => decide (stripKey s = stripKey r1)) = 1 :=
      of_decide_eq_true (List.mem_filter.mp hmem).2
    have h2c : 2 ≤ df.countP (fun s => decide (stripKey s = stripKey r1)) :=
      two_le_countP_of_mem _ h1 h2 hne (by simp) (by simp [hkey])
    omega
  · intro a b hna hnb hk
    simp [extract_duplicates, List.filter, hna, hnb, List.countP_cons,
      List.countP_nil, hk, Ne.symm hk]

theorem C7_whitespace_key_amended_witness :
    rowA ∉ drop_all_dupe_keys [rowA, rowB] ∧
    (extract_duplicates [rowA, rowB]).1 = [] := by
  constructor
  · exact C7_whitespace_key_amended.1 [rowA, rowB] rowA rowB (by simp) (by simp)
      (by decide) (by decide)
  · exact C7_whitespace_key_amended.2 rowA rowB (by decide) (by decide) (by decide)

/-- C8: Mode B deduplication is idempotent — after one pass every surviving
stripped key is globally unique, so a second pass removes nothing. -/
theorem C8_dedup_idempotent :
    ∀ df : List Row,
      drop_all_dupe_keys (drop_all_dupe_keys df) = drop_all_dupe_keys df := by
  intro df
  have key : ∀ r ∈ drop_all_dupe_keys df,
      (drop_all_dupe_keys df).countP (fun s => decide (stripKey s = stripKey r)) = 1 := by
    intro r hr
    have hcount : df.countP (fun s => decide (stripKey s = stripKey r)) = 1 :=
      of_decide_eq_true (List.mem_filter.mp hr).2
    have hsub : List.Sublist (drop_all_dupe_keys df) df := List.filter_sublist df
    have hle := hsub.countP_le (fun s => decide (stripKey s = stripKey r))
    have hpos : 0 < (drop_all_dupe_keys df).countP
        (fun s => decide (stripKey s = stripKey r)) :=
      List.countP_pos_iff.mpr ⟨r, hr, by simp⟩
    omega
  calc drop_all_dupe_keys (drop_all_dupe_keys df)
      = (drop_all_dupe_keys df).filter (fun r =>
          decide ((drop_all_dupe_keys df).countP
            (fun s => decide (stripKey s = stripKey r)) = 1)) := rfl
    _ = drop_all_dupe_keys df :=
        List.filter_eq_self.mpr (fun r hr => by simp [key r hr])

/-!
## Flight-number normalization (Helpers/extract_text_from_pdf.py lines 18–37)

`replaceCode` embeds the source's flight-code replacement function (the
function taking `flight_code` at lines 20–37): first an exact, upper-cased
lookup in `code_map_1`, then a longest-key scan over `code_map_2`'s keys
sorted by length descending, else the raw code unchanged.  The JSON dicts are
embedded as association lists with distinct keys; `parse_fields` line 101 can
pass `None`, embedded as `none`.
-/

/-- Boolean "is a prefix of": `flight_code.upper().startswith(key)`. -/
def isPre : Str → Str → Bool
  | [], _ => true
  | _ :: _, [] => false
  | a :: s, b :: t => a == b && isPre s t

theorem isPre_length {k s : Str} (h : isPre k s = true) : k.length ≤ s.length := by
  induction k generalizing s with
  | nil => simp
  | cons a kk ih =>
    cases s with
    | nil => simp [isPre] at h
    | cons b t =>
      simp only [isPre, Bool.and_eq_true] at h
      simp only [List.length_cons]
      exact Nat.succ_le_succ (ih h.2)

theorem isPre_eq_of_length {k k' s : Str} (h : isPre k s = true)
    (h' : isPre k' s = true) (hl : k.length = k'.length) : k = k' := by
  induction s generalizing k k' with
  | nil =>
    cases k with
    | nil =>
      cases k' with
      | nil => rfl
      | cons a' t' => simp [isPre] at h'
    | cons a t => simp [isPre] at h
  | cons b t ih =>
    cases k with
    | nil =>
      cases k' with
      | nil => rfl
      | cons a' kk' => simp at hl
    | cons a kk =>
      cases k' with
      | nil => simp at hl
      | cons a' kk' =>
        simp only [isPre, Bool.and_eq_true, beq_iff_eq] at h h'
        obtain ⟨ha, hh⟩ := h
        obtain ⟨ha', hh'⟩ := h'
        subst ha
        subst ha'
        have : kk = kk' := ih hh hh' (by simpa using hl)
        rw [this]

/-- Length-descending comparison on table entries: the relation behind
`sorted(code_map_2.keys(), key=len, reverse=True)` (line 18), stable on ties. -/
def lenDescLE (p q : Str × Str) : Bool := decide (q.1.length ≤ p.1.length)

theorem lenDescLE_trans (a b c : Str × Str) (h₁ : lenDescLE a b = true)
    (h₂ : lenDescLE b c = true) : lenDescLE a c = true := by
  simp only [lenDescLE, decide_eq_true_eq] at *
  omega

theorem lenDescLE_total (a b : Str × Str) :
    lenDescLE a b = true ∨ lenDescLE b a = true := by
  simp only [lenDescLE, decide_eq_true_eq]
  omega

/-- `sorted_keys` (line 18), with each key carrying its `code_map_2` value. -/
def sorted_keys (code_map_2 : List (Str × Str)) : List (Str × Str) :=
  isort lenDescLE code_map_2

/-- The `for key in sorted_keys` scan (lines 30–34): on the first key that is a
prefix of the upper-cased code, return the replacement followed by the
remainder of the original code. -/
def scanKeys (cu code : Str) : List (Str × Str) → Option Str
  | [] => none
  | (k, v) :: rest =>
    if isPre k cu then some (v ++ code.drop k.length) else scanKeys cu code rest

theorem scanKeys_none (cu code : Str) :
    ∀ l : List (Str × Str), (∀ k v, (k, v) ∈ l → isPre k cu = false) →
      scanKeys cu code l = none := by
  intro l
  induction l with
  | nil => intro _; rfl
  | cons p rest ih =>
    intro h
    obtain ⟨k, v⟩ := p
    have hk : isPre k cu = false := h k v (by simp)
    simp only [scanKeys, hk, Bool.false_eq_true, if_false]
    exact ih (fun k' v' hm => h k' v' (List.mem_cons_of_mem _ hm))

theorem scanKeys_longest :
    ∀ (l : List (Str × Str)) (cu code k v : Str),
      l.Pairwise (fun p q => lenDescLE p q = true) →
      (l.map Prod.fst).Nodup →
      (k, v) ∈ l → isPre k cu = true →
      (∀ k' v', (k', v') ∈ l → isPre k' cu = true → k'.length ≤ k.length) →
      scanKeys cu code l = some (v ++ code.drop k.length) := by
  intro l
  induction l with
  | nil => intro cu code k v _ _ hmem; simp at hmem
  | cons p rest ih =>
    intro cu code k v hpair hnodup hmem hk hmax
    obtain ⟨k0, v0⟩ := p
    rcases List.pairwise_cons.mp hpair with ⟨hhead, htail⟩
    have hnodup' : (rest.map Prod.fst).Nodup ∧ k0 ∉ rest.map Prod.fst := by
      have := hnodup
      simp only [List.map_cons] at this
      exact ⟨(List.nodup_cons.mp this).2, (List.nodup_cons.mp this).1⟩
    cases hk0 : isPre k0 cu with
    | true =>
      have hlen0 : k0.length ≤ k.length := hmax k0 v0 (by simp) hk0
      rcases List.mem_cons.mp hmem with heq | hmem'
      · obtain ⟨rfl, rfl⟩ := Prod.mk.injEq .. ▸ heq
        simp [scanKeys, hk0]
      · have h1 : lenDescLE (k0, v0) (k, v) = true := hhead _ hmem'
        have h2 : k.length ≤ k0.length := by
          simpa [lenDescLE] using h1
        have hkk : k = k0 := isPre_eq_of_length hk hk0 (le_antisymm h2 hlen0)
        exfalso
        have hkm : k ∈ rest.map Prod.fst := List.mem_map.mpr ⟨(k, v), hmem', rfl⟩
        rw [hkk] at hkm
        exact hnodup'.2 hkm
    | false =>
      have hne : (k, v) ≠ (k0, v0) := by
        intro he
        cases he
        simp [hk0] at hk
      have hmem' : (k, v) ∈ rest := by
        rcases List.mem_cons.mp hmem with he | hm
        · exact absurd he hne
        · exact hm
      simp only [scanKeys, hk0, Bool.false_eq_true, if_false]
      exact ih cu code k v htail hnodup'.1 hmem' hk
        (fun k' v' hm' hp' => hmax k' v' (List.mem_cons_of_mem _ hm') hp')

/-- The flight-code replacement function (extract_text_from_pdf.py lines
20–37), lifted to `Option Str` because `parse_fields` may hand it `None`:
falsy input (`None` or the empty string) is returned unchanged; otherwise
exact upper-cased lookup in `code_map_1` wins, then the longest matching key
of `code_map_2` is replaced keeping the remainder of the original code, else
the raw code passes through. -/
def replaceCode (code_map_1 code_map_2 : List (Str × Str)) : Option Str → Option Str
  | none => none
  | some code =>
    if code = [] then some code
    else
      match List.lookup (upperStr code) code_map_1 with
      | some v => some v
      | none =>
        match scanKeys (upperStr code) code (sorted_keys code_map_2) with
        | some res => some res
        | none => some code

/-- C6: for a non-empty code, an exact (case-insensitive) `code_map_1` entry
always wins — whatever `code_map_2` contains; otherwise the longest
`code_map_2` key that prefixes the upper-cased code is replaced, keeping the
remainder of the original code; otherwise the code is unchanged. -/
theorem C6_carrier_code_normalization :
    ∀ (code_map_1 code_map_2 : List (Str × Str)) (code : Str), code ≠ [] →
      (∀ v, List.lookup (upperStr code) code_map_1 = some v →
          replaceCode code_map_1 code_map_2 (some code) = some v)
      ∧ (List.lookup (upperStr code) code_map_1 = none →
          (code_map_2.map Prod.fst).Nodup →
          ∀ k v, (k, v) ∈ code_map_2 → isPre k (upperStr code) = true →
            (∀ k' v', (k', v') ∈ code_map_2 → isPre k' (upperStr code) = true →
              k'.length ≤ k.length) →
            replaceCode code_map_1 code_map_2 (some code) =
              some (v ++ code.drop k.length))
      ∧ ((∀ k v, (k, v) ∈ code_map_2 → isPre k (upperStr code) = false) →
          List.lookup (upperStr code) code_map_1 = none →
          replaceCode code_map_1 code_map_2 (some code) = some code) := by
  intro m1 m2 code hcode
  refine ⟨?_, ?_, ?_⟩
  · intro v hv
    simp [replaceCode, hcode, hv]
  · intro hnone hnodup k v hmem hk hmax
    have hscan : scanKeys (upperStr code) code (sorted_keys m2) =
        some (v ++ code.drop k.length) := by
      apply scanKeys_longest (isort lenDescLE m2) (upperStr code) code k v
      · exact pairwise_isort lenDescLE lenDescLE_trans lenDescLE_total m2
      · exact ((isort_perm lenDescLE m2).map Prod.fst).nodup_iff.mpr hnodup
      · exact (mem_isort lenDescLE).mpr hmem
      · exact hk
      · intro k' v' hm' hp'
        exact hmax k' v' ((mem_isort lenDescLE).mp hm') hp'
    simp [replaceCode, hcode, hnone, hscan]
  · intro hnomatch hnone
    have hscan : scanKeys (upperStr code) code (sorted_keys m2) = none := by
      apply scanKeys_none
      intro k v hm
      exact hnomatch k v ((mem_isort lenDescLE).mp hm)
    simp [replaceCode, hcode, hnone, hscan]

def exMap : List (Str × Str) := [(str "AB123", str "XY9")]

def preMap : List (Str × Str) := [(str "A", str "Q"), (str "AB", str "ZZ")]

theorem C6_carrier_code_normalization_witness :
    replaceCode exMap preMap (some (str "ab123")) = some (str "XY9") ∧
    replaceCode exMap preMap (some (str "AB999")) = some (str "ZZ999") := by
  constructor
  · exact (C6_carrier_code_normalization exMap preMap (str "ab123") (by decide)).1
      (str "XY9") (by decide)
  · have hmax : ∀ k' v', (k', v') ∈ preMap →
        isPre k' (upperStr (str "AB999")) = true →
        k'.length ≤ (str "AB").length := by
      intro k' v' hm _
      simp only [preMap, List.mem_cons, List.not_mem_nil, or_false] at hm
      rcases hm with h | h <;> (cases h; decide)
    have h := (C6_carrier_code_normalization exMap preMap (str "AB999")
        (by decide)).2.1 (by decide) (by decide) (str "AB") (str "ZZ")
      (by simp [preMap]) (by decide) hmax
    rw [h]
    decide

/-- C10: when the flight-number rule produced no value (`None` or the empty
string), the replacement function returns it unchanged without consulting
either lookup table — the result does not depend on the tables at all. -/
theorem C10_missing_flight_number_total :
    ∀ (m1 m2 m1' m2' : List (Str × Str)),
      replaceCode m1 m2 none = none ∧
      replaceCode m1 m2 (some []) = some [] ∧
      replaceCode m1 m2 none = replaceCode m1' m2' none ∧
      replaceCode m1 m2 (some []) = replaceCode m1' m2' (some []) := by
  intro m1 m2 m1' m2'
  refine ⟨rfl, by simp [replaceCode], rfl, by simp [replaceCode]⟩

/-!
## Always-empty sentinel rules (Helpers/extract_text_from_pdf.py lines 52–86)

Several fields (`STD`, `STA`, `ETD`, `ETA`, `FuelBurn`, `DelayReason`, `Pax`,
`Payload`, `ReasonOfCancellation`, `Status`, `Rotation`) use the sentinel
pattern `$^`.  Under Python `re` (no `MULTILINE`), `$` matches at position `p`
iff `p = len(text)` or (`p = len(text) - 1` and the last character is a
newline), and `^` matches only at `p = 0`; `re.search` therefore finds a
zero-width match iff the text is empty or the single character `"\n"`.  When
it matches, `match.groups()` is empty, so `next((g for g in match.groups() if
g), "")` yields `""` and the field is set to `""` — not `None`.
-/

/-- Whether `re.search(r'$^', text)` succeeds. -/
def sentinelMatch (text : Str) : Bool := text == [] || text == ['\n']

/-- The value `parse_fields` stores for a field whose pattern is `$^`:
the empty string on a (degenerate) match, `None` otherwise. -/
def sentinelValue (text : Str) : Option Str :=
  if sentinelMatch text then some [] else none

/-- C9 fails on the code at the empty document text: the sentinel pattern
matches the empty text (both `$` and `^` match at position 0), so the field
becomes `""` rather than `None`. -/
theorem C9_sentinel_cex : sentinelValue [] = some [] ∧ sentinelValue [] ≠ none := by
  decide

/-- C9 amended: for every document text other than the empty text and the
single newline `"\n"`, every `$^`-patterned field is `None`; on those two
degenerate texts the rule matches and the field becomes the empty string. -/
theorem C9_sentinel_amended :
    ∀ text : Str, text ≠ [] → text ≠ ['\n'] → sentinelValue text = none := by
  intro t h1 h2
  simp [sentinelValue, sentinelMatch, h1, h2]

theorem C9_sentinel_amended_witness : sentinelValue (str "OFF BLOCKS 04:21") = none :=
  C9_sentinel_amended (str "OFF BLOCKS 04:21") (by decide) (by decide)
